import Mathlib

/-!
# intcodec: integer encoding and decoding in an arbitrary radix

A shallow embedding of `intcodec.go`.

* A Go `string` is a sequence of bytes: `List Byte` with `Byte = Fin 256`.
* `uint64` values are naturals below `2^64`; every `uint64` operation that can
  wrap is followed by `% 2^64`.
* `int64` values are integers in `[-2^63, 2^63)`; conversions and negation wrap
  explicitly (`asInt64`, `toUint64`, `negInt64`).
* A run-time panic (explicit `panic(...)` or an index out of range) is the
  `error` branch of `Except Panic` for the constructors and `none` for `encode`.
* The decode methods return the Go pair `(n, err)`; `err = none` is `nil`.
-/

namespace Intcodec

/-- One byte of a Go string. -/
abbrev Byte := Fin 256

/-- The bytes of an ASCII string literal. -/
def bytes (s : String) : List Byte :=
  s.toList.map (fun ch => (⟨ch.toNat % 256, Nat.mod_lt _ (by decide)⟩ : Byte))

/-- The byte `'-'`. -/
def minus : Byte := 45

/-- The constant `lowerBase36`. -/
def lowerBase36 : List Byte := bytes "0123456789abcdefghijklmnopqrstuvwxyz"

/-- The constant `upperBase36`. -/
def upperBase36 : List Byte := bytes "0123456789ABCDEFGHIJKLMNOPQRSTUVWXYZ"

/-- The constant `base64`. -/
def base64 : List Byte :=
  bytes "ABCDEFGHIJKLMNOPQRSTUVWXYZabcdefghijklmnopqrstuvwxyz0123456789+/"

/-- The three error values of the package. -/
inductive DecodeError where
  | ErrEmpty
  | ErrInvalid
  | ErrOverflow
  deriving DecidableEq, Repr

/-- The ways a call can panic. -/
inductive Panic where
  | minBase
  | maxBase
  | duplicate
  | lowerBaseNArg
  | upperBaseNArg
  deriving DecidableEq, Repr

deriving instance DecidableEq for Except

/-- The struct `Codec`: `encodeMap string`, `decodeMap []int16` (always made
with 256 entries and indexed by a byte), `maxlen int`. -/
structure Codec where
  encodeMap : List Byte
  decodeMap : Mathlib.Vector Int 256
  maxlen : Nat
  deriving DecidableEq

/-- Conversion `int64(u)` of a `uint64`: the two's-complement reinterpretation. -/
def asInt64 (u : Nat) : Int :=
  if u % 2 ^ 64 < 2 ^ 63 then ((u % 2 ^ 64 : Nat) : Int) else ((u % 2 ^ 64 : Nat) : Int) - 2 ^ 64

/-- Conversion `uint64(n)` of an `int64`: the residue modulo `2^64`. -/
def toUint64 (n : Int) : Nat := (n % 2 ^ 64).toNat

/-- Negation `-n` of an `int64`, wrapping at the minimum value. -/
def negInt64 (n : Int) : Int := asInt64 (toUint64 (-n))

/-- Search downwards from `k` for the largest `j ≤ k` with `r^(2j-1) ≤ 2^128`. -/
def roundLogAux (r : Nat) : Nat → Nat
  | 0 => 0
  | k + 1 => if r ^ (2 * k + 1) ≤ 2 ^ 128 then k + 1 else roundLogAux r k

/-- The value of `int(math.Log(float64(2<<63))/math.Log(float64(r)) + 0.5)`,
computed exactly: `floor(log_r(2^64) + 1/2)` is the largest `k` with
`k - 1/2 ≤ log_r(2^64)`, that is with `r^(2k-1) ≤ 2^128`; for `r ≥ 2` no such
`k` exceeds 64. For every radix from 2 to 256 the real number
`log_r(2^64) + 1/2` is farther than `10^-4` from an integer, so the
double-precision evaluation in the source truncates to the same integer. -/
def roundLog (r : Nat) : Nat := roundLogAux r 64

/-- The loop `for i := 0; i < len(encoding); i++` of `New`, started at index `i`
with the remaining characters of the encoding. -/
def fillDecode : List Byte → Nat → Mathlib.Vector Int 256 →
    Except Panic (Mathlib.Vector Int 256)
  | [], _, decode => .ok decode
  | b :: rest, i, decode =>
    if decode.get b ≥ 0 then .error .duplicate
    else fillDecode rest (i + 1) (decode.set b (i : Int))

/-- The constructor `New`. -/
def New (encoding : List Byte) : Except Panic Codec :=
  if encoding.length < 2 then .error .minBase
  else if encoding.length > 256 then .error .maxBase
  else
    match fillDecode encoding 0 (Mathlib.Vector.replicate 256 (-1)) with
    | .error e => .error e
    | .ok decode => .ok ⟨encoding, decode, roundLog encoding.length + 1⟩

/-- The constructor `LowerBaseN`. -/
def LowerBaseN (n : Int) : Except Panic Codec :=
  if n < 2 ∨ n > 36 then .error .lowerBaseNArg
  else New (lowerBase36.take n.toNat)

/-- The constructor `UpperBaseN`. -/
def UpperBaseN (n : Int) : Except Panic Codec :=
  if n < 2 ∨ n > 36 then .error .upperBaseNArg
  else New (upperBase36.take n.toNat)

/-- The method `Base`. -/
def Codec.Base (c : Codec) : Nat := c.encodeMap.length

/-- The digit loop of `encode`, entered with index `i` (before `i--`), the
remaining number `n` and the buffer. It returns the final index and buffer, or
`none` when `i--` reaches `-1` and `buf[i]` panics (or `encodeMap` is indexed
out of range). `encode` enters it with `i = len(buf)`, so every index written
is below the length of the buffer. -/
def encodeLoop (c : Codec) : Nat → Nat → List Byte → Option (Nat × List Byte)
  | 0, _, _ => none
  | i + 1, n, buf =>
    match c.encodeMap[n % c.encodeMap.length]? with
    | none => none
    | some ch =>
      if n / c.encodeMap.length = 0 then some (i, buf.set i ch)
      else encodeLoop c i (n / c.encodeMap.length) (buf.set i ch)

/-- The method `encode`: `none` is a run-time panic. -/
def Codec.encode (c : Codec) (n : Nat) (sign : Bool) : Option (List Byte) :=
  match encodeLoop c c.maxlen n (List.replicate c.maxlen 0) with
  | none => none
  | some (i, buf) =>
    if sign then
      match i with
      | 0 => none
      | j + 1 => some ((buf.set j minus).drop j)
    else some (buf.drop i)

/-- The method `EncodeUint`. -/
def Codec.EncodeUint (c : Codec) (n : Nat) : Option (List Byte) :=
  c.encode n false

/-- The method `EncodeInt`. -/
def Codec.EncodeInt (c : Codec) (n : Int) : Option (List Byte) :=
  if n < 0 then c.encode (toUint64 (negInt64 n)) true
  else c.encode (toUint64 n) false

/-- The loop of `DecodeUint` over the remaining bytes, with accumulator `n`. -/
def decodeLoop (c : Codec) : List Byte → Nat → Nat × Option DecodeError
  | [], n => (n, none)
  | b :: rest, n =>
    if c.decodeMap.get b < 0 then (n, some .ErrInvalid)
    else if (n * c.encodeMap.length + (c.decodeMap.get b).toNat) % 2 ^ 64 < n then
      (n, some .ErrOverflow)
    else decodeLoop c rest ((n * c.encodeMap.length + (c.decodeMap.get b).toNat) % 2 ^ 64)

/-- The method `DecodeUint`. -/
def Codec.DecodeUint (c : Codec) (s : List Byte) : Nat × Option DecodeError :=
  if s = [] then (0, some .ErrEmpty) else decodeLoop c s 0

/-- The method `DecodeInt`. -/
def Codec.DecodeInt (c : Codec) (s : List Byte) : Int × Option DecodeError :=
  match s with
  | [] => (0, some .ErrEmpty)
  | b :: rest =>
    let r := c.DecodeUint (if b = minus then rest else b :: rest)
    let n := asInt64 r.1
    let err := if r.2 ≠ none ∧ n < 0 then some DecodeError.ErrOverflow else r.2
    (if b = minus then negInt64 n else n, err)

/-- Run `f` on the codec `LowerBaseN r`; `none` when the constructor panics. -/
def withLower {α : Type} (r : Int) (f : Codec → α) : Option α :=
  match LowerBaseN r with
  | .ok c => some (f c)
  | .error _ => none

/-- The codec `New a` builds, for stating facts about a concrete alphabet. -/
def codecOf (a : List Byte) : Codec :=
  match New a with
  | .ok c => c
  | .error _ => ⟨[], Mathlib.Vector.replicate 256 (-1), 0⟩

/-- The table `tests` of the test file: number, base, string. -/
def tests : List (Int × Int × String) :=
  [(0, 10, "0"), (1, 10, "1"), (-1, 10, "-1"), (12345678, 10, "12345678"),
   (-987654321, 10, "-987654321"), (2 ^ 31 - 1, 10, "2147483647"),
   (-2 ^ 31 + 1, 10, "-2147483647"), (2 ^ 31, 10, "2147483648"),
   (-2 ^ 31, 10, "-2147483648"), (2 ^ 31 + 1, 10, "2147483649"),
   (-2 ^ 31 - 1, 10, "-2147483649"), (2 ^ 32 - 1, 10, "4294967295"),
   (-2 ^ 32 + 1, 10, "-4294967295"), (2 ^ 32, 10, "4294967296"),
   (-2 ^ 32, 10, "-4294967296"), (2 ^ 32 + 1, 10, "4294967297"),
   (-2 ^ 32 - 1, 10, "-4294967297"), (2 ^ 50, 10, "1125899906842624"),
   (2 ^ 63 - 1, 10, "9223372036854775807"), (-2 ^ 63 + 1, 10, "-9223372036854775807"),
   (-2 ^ 63, 10, "-9223372036854775808"),
   (0, 2, "0"), (10, 2, "1010"), (-1, 2, "-1"), (2 ^ 15, 2, "1000000000000000"),
   (-8, 8, "-10"), (0o57635436545, 8, "57635436545"), (2 ^ 24, 8, "100000000"),
   (16, 16, "10"), (-0x123456789abcdef, 16, "-123456789abcdef"),
   (2 ^ 63 - 1, 16, "7fffffffffffffff"),
   (2 ^ 63 - 1, 2, "111111111111111111111111111111111111111111111111111111111111111"),
   (16, 17, "g"), (25, 25, "10"),
   ((((((17 * 35 + 24) * 35 + 21) * 35 + 34) * 35 + 12) * 35 + 24) * 35 + 32, 35, "holycow"),
   ((((((17 * 36 + 24) * 36 + 21) * 36 + 34) * 36 + 12) * 36 + 24) * 36 + 32, 36, "holycow")]

/-- The check of `TestEncode` on one row. -/
def testEncodeRow (t : Int × Int × String) : Bool :=
  decide (withLower t.2.1 (fun c => c.EncodeInt t.1) = some (some (bytes t.2.2)))

/-- The check of `TestDecode` on one row. -/
def testDecodeRow (t : Int × Int × String) : Bool :=
  decide (withLower t.2.1 (fun c => c.DecodeInt (bytes t.2.2)) = some (t.1, none))

/-- The positional value of a digit string, most significant digit first:
the sum of `digit_i * r^(len-1-i)`. -/
def posValue (r : Nat) : List Nat → Nat
  | [] => 0
  | d :: ds => d * r ^ ds.length + posValue r ds

/-- The digit a byte stands for in an alphabet: its index. -/
def digitOf (a : List Byte) (b : Byte) : Nat := a.indexOf b

/-- The character `alphabet[d]` of digit `d`. -/
def encDigit (a : List Byte) (d : Nat) : Byte := a.getD d 0

/-- The base-`r` digits of `n`, most significant first; zero is the single
digit 0. -/
def msbDigits (r n : Nat) : List Nat :=
  if n = 0 then [0] else (Nat.digits r n).reverse

/-- What `New a = ok c` establishes about `c`. -/
structure IsCodecOf (a : List Byte) (c : Codec) : Prop where
  encodeMap_eq : c.encodeMap = a
  two_le : 2 ≤ a.length
  le_256 : a.length ≤ 256
  nodup : a.Nodup
  decode_mem : ∀ b ∈ a, c.decodeMap.get b = (a.indexOf b : Nat)
  decode_not_mem : ∀ b, b ∉ a → c.decodeMap.get b = -1
  maxlen_eq : c.maxlen = roundLog a.length + 1

/-! ## The constructor -/

theorem fillDecode_ok (l : List Byte) : ∀ (i : Nat) (d d' : Mathlib.Vector Int 256),
    fillDecode l i d = .ok d' →
    l.Nodup ∧ (∀ b ∈ l, d.get b < 0) ∧ (∀ b, b ∉ l → d'.get b = d.get b) ∧
      (∀ b ∈ l, d'.get b = ((i + l.indexOf b : Nat) : Int)) := by
  induction l with
  | nil =>
    intro i d d' h
    simp only [fillDecode, Except.ok.injEq] at h
    subst h
    simp
  | cons b rest ih =>
    intro i d d' h
    unfold fillDecode at h
    split at h
    · cases h
    · rename_i hneg
      obtain ⟨hnd, hlt, hout, hin⟩ := ih (i + 1) _ d' h
      have hb : b ∉ rest := by
        intro hmem
        have := hlt b hmem
        rw [Mathlib.Vector.get_set_same] at this
        omega
      refine ⟨List.nodup_cons.mpr ⟨hb, hnd⟩, ?_, ?_, ?_⟩
      · intro x hx
        rcases List.mem_cons.mp hx with rfl | hx
        · omega
        · have hne : b ≠ x := fun e => hb (e ▸ hx)
          have := hlt x hx
          rwa [Mathlib.Vector.get_set_of_ne hne] at this
      · intro x hx
        have hne : b ≠ x := fun e => hx (e ▸ List.mem_cons_self _ _)
        have hx2 : x ∉ rest := fun e => hx (List.mem_cons_of_mem _ e)
        rw [hout x hx2, Mathlib.Vector.get_set_of_ne hne]
      · intro x hx
        by_cases hxb : x = b
        · subst hxb
          rw [hout x hb, Mathlib.Vector.get_set_same, List.indexOf_cons_self]
          rfl
        · have hx2 : x ∈ rest := by
            rcases List.mem_cons.mp hx with e | e
            · exact absurd e hxb
            · exact e
          rw [hin x hx2, List.indexOf_cons_ne _ (Ne.symm hxb)]
          congr 1
          omega

theorem New_ok {a : List Byte} {c : Codec} (h : New a = .ok c) : IsCodecOf a c := by
  unfold New at h
  split at h
  · cases h
  · split at h
    · cases h
    · split at h
      · cases h
      · rename_i h1 h2 decode hfill
        simp only [Except.ok.injEq] at h
        subst h
        obtain ⟨hnd, _, hout, hin⟩ := fillDecode_ok a 0 _ decode hfill
        refine ⟨rfl, by omega, by omega, hnd, ?_, ?_, rfl⟩
        · intro b hb
          simpa using hin b hb
        · intro b hb
          rw [hout b hb, Mathlib.Vector.get_replicate]

/-! ## Digits and positional value -/

theorem msbDigits_step {r : Nat} (hr : 2 ≤ r) (n : Nat) :
    msbDigits r n = if n / r = 0 then [n % r] else msbDigits r (n / r) ++ [n % r] := by
  by_cases hn : n = 0
  · subst hn
    simp [msbDigits]
  · have hpos : 0 < n := Nat.pos_of_ne_zero hn
    have hd := Nat.digits_def' (show 1 < r by omega) hpos
    by_cases hq : n / r = 0
    · simp [msbDigits, hn, hq, hd]
    · simp [msbDigits, hn, hq, hd]

theorem msbDigits_ne_nil (r n : Nat) : msbDigits r n ≠ [] := by
  unfold msbDigits
  split
  · simp
  · rename_i hn
    simpa [Nat.digits_eq_nil_iff_eq_zero] using hn

theorem msbDigits_lt {r : Nat} (hr : 2 ≤ r) (n : Nat) : ∀ d ∈ msbDigits r n, d < r := by
  intro d hd
  unfold msbDigits at hd
  split at hd
  · simp at hd
    omega
  · exact Nat.digits_lt_base (show 1 < r by omega) (List.mem_reverse.mp hd)

theorem msbDigits_length_le {r : Nat} (hr : 2 ≤ r) :
    ∀ (i n : Nat), n < r ^ (i + 1) → (msbDigits r n).length ≤ i + 1 := by
  intro i
  induction i with
  | zero =>
    intro n hn
    rw [msbDigits_step hr]
    have : n / r = 0 := Nat.div_eq_of_lt (by simpa using hn)
    simp [this]
  | succ i ih =>
    intro n hn
    rw [msbDigits_step hr]
    split
    · simp
    · have hq : n / r < r ^ (i + 1) := by
        apply Nat.div_lt_of_lt_mul
        rw [pow_succ] at hn
        rw [Nat.mul_comm]
        exact hn
      have := ih (n / r) hq
      simp
      omega

theorem posValue_append_single (r : Nat) (ds : List Nat) (d : Nat) :
    posValue r (ds ++ [d]) = posValue r ds * r + d := by
  induction ds with
  | nil => simp [posValue]
  | cons x xs ih =>
    rw [List.cons_append]
    simp only [posValue]
    rw [ih, List.length_append, List.length_singleton]
    ring

theorem posValue_msbDigits {r : Nat} (hr : 2 ≤ r) (n : Nat) : posValue r (msbDigits r n) = n := by
  induction n using Nat.strong_induction_on with
  | _ n ih =>
    rw [msbDigits_step hr]
    split
    · rename_i hq
      have hlt : n < r := by
        by_contra hge
        have : 0 < n / r := Nat.div_pos (by omega) (by omega)
        omega
      simp [posValue, Nat.mod_eq_of_lt hlt]
    · rename_i hq
      have hlt : n / r < n := by
        apply Nat.div_lt_self
        · by_contra h0
          have : n = 0 := by omega
          subst this
          simp at hq
        · omega
      rw [posValue_append_single, ih _ hlt]
      exact Nat.div_add_mod' n r

/-! ## The buffer bound -/

theorem roundLogAux_le (r : Nat) : ∀ k, roundLogAux r k ≤ k := by
  intro k
  induction k with
  | zero => simp [roundLogAux]
  | succ k ih =>
    unfold roundLogAux
    split
    · exact le_rfl
    · omega

theorem roundLogAux_max (r : Nat) :
    ∀ k j, roundLogAux r k < j → j ≤ k → 2 ^ 128 < r ^ (2 * j - 1) := by
  intro k
  induction k with
  | zero =>
    intro j h1 h2
    omega
  | succ k ih =>
    intro j h1 h2
    unfold roundLogAux at h1
    split at h1
    · omega
    · rename_i hgt
      by_cases hj : j = k + 1
      · subst hj
        have : 2 * (k + 1) - 1 = 2 * k + 1 := by omega
        rw [this]
        omega
      · exact ih j h1 (by omega)

theorem pow_maxlen_gt {r : Nat} (hr : 2 ≤ r) : 2 ^ 64 < r ^ (roundLog r + 1) := by
  have hle : roundLog r ≤ 64 := roundLogAux_le r 64
  by_cases h64 : roundLog r = 64
  · rw [h64]
    calc 2 ^ 64 < 2 ^ 65 := by norm_num
      _ ≤ r ^ 65 := Nat.pow_le_pow_left hr 65
  · have hmax := roundLogAux_max r 64 (roundLog r + 1) (Nat.lt_succ_self _) (by omega)
    have he : 2 * (roundLog r + 1) - 1 = 2 * roundLog r + 1 := by omega
    rw [he] at hmax
    by_contra hnot
    have hle2 : r ^ (roundLog r + 1) ≤ 2 ^ 64 := Nat.le_of_not_lt hnot
    have hsq : r ^ (roundLog r + 1) * r ^ (roundLog r + 1) ≤ 2 ^ 64 * 2 ^ 64 :=
      Nat.mul_le_mul hle2 hle2
    have h1 : r ^ (2 * roundLog r + 1) ≤ r ^ (roundLog r + 1) * r ^ (roundLog r + 1) := by
      rw [← pow_add]
      exact Nat.pow_le_pow_right (by omega) (by omega)
    have h2 : (2 : Nat) ^ 64 * 2 ^ 64 = 2 ^ 128 := by norm_num
    omega

/-! ## Encoding -/

theorem getElem?_encDigit {a : List Byte} {d : Nat} (h : d < a.length) :
    a[d]? = some (encDigit a d) := by
  simp [encDigit, List.getD_eq_getElem?_getD, List.getElem?_eq_getElem h]

theorem encDigit_eq_getElem {a : List Byte} {d : Nat} (h : d < a.length) :
    encDigit a d = a[d] := by
  have := getElem?_encDigit h
  rw [List.getElem?_eq_getElem h] at this
  exact (Option.some.inj this).symm

theorem encDigit_mem {a : List Byte} {d : Nat} (h : d < a.length) : encDigit a d ∈ a := by
  rw [encDigit_eq_getElem h]
  exact List.getElem_mem h

theorem digitOf_encDigit {a : List Byte} (hnd : a.Nodup) {d : Nat} (h : d < a.length) :
    digitOf a (encDigit a d) = d := by
  rw [digitOf, encDigit_eq_getElem h]
  exact List.indexOf_getElem hnd d h

theorem drop_set_self {α : Type} (buf : List α) (i : Nat) (x : α) (h : i < buf.length) :
    (buf.set i x).drop i = x :: buf.drop (i + 1) := by
  have hlen : i < (buf.set i x).length := by simpa using h
  rw [List.drop_eq_getElem_cons hlen, List.getElem_set_self, List.drop_set_of_lt _ _ (Nat.lt_succ_self i)]

theorem encodeLoop_spec {a : List Byte} {c : Codec} (hc : IsCodecOf a c) :
    ∀ (i n : Nat) (buf : List Byte), i ≤ buf.length →
      if (msbDigits a.length n).length ≤ i then
        ∃ out, encodeLoop c i n buf = some (i - (msbDigits a.length n).length, out) ∧
          out.length = buf.length ∧
          out.drop (i - (msbDigits a.length n).length) =
            (msbDigits a.length n).map (encDigit a) ++ buf.drop i
      else encodeLoop c i n buf = none := by
  have hr := hc.two_le
  intro i
  induction i with
  | zero =>
    intro n buf _
    have hne := msbDigits_ne_nil a.length n
    have : ¬ (msbDigits a.length n).length ≤ 0 := by
      intro h
      exact hne (List.length_eq_zero.mp (Nat.le_zero.mp h))
    rw [if_neg this]
    rfl
  | succ i ih =>
    intro n buf hbuf
    have hmod : n % a.length < a.length := Nat.mod_lt _ (by omega)
    unfold encodeLoop
    rw [hc.encodeMap_eq, getElem?_encDigit hmod]
    simp only []
    rw [msbDigits_step hr n]
    by_cases hq : n / a.length = 0
    · simp only [hq, if_true, List.length_singleton]
      rw [if_pos (by omega)]
      refine ⟨_, rfl, by simp, ?_⟩
      simp only [Nat.add_sub_cancel, List.map_cons, List.map_nil, List.singleton_append]
      exact drop_set_self buf i _ (by omega)
    · simp only [hq, if_false, List.length_append, List.length_singleton]
      have hrec := ih (n / a.length) (buf.set i (encDigit a (n % a.length)))
        (by simp; omega)
      by_cases hk : (msbDigits a.length (n / a.length)).length ≤ i
      · rw [if_pos hk] at hrec
        rw [if_pos (by omega)]
        obtain ⟨out, h1, h2, h3⟩ := hrec
        refine ⟨out, ?_, by simpa using h2, ?_⟩
        · rw [h1]
          congr 2
          omega
        · have hidx : i + 1 - ((msbDigits a.length (n / a.length)).length + 1) =
              i - (msbDigits a.length (n / a.length)).length := by omega
          rw [hidx, h3, drop_set_self buf i _ (by omega)]
          simp
      · rw [if_neg hk] at hrec
        rw [if_neg (by omega)]
        exact hrec

theorem encode_spec {a : List Byte} {c : Codec} (hc : IsCodecOf a c) (n : Nat) (sign : Bool) :
    c.encode n sign =
      if (msbDigits a.length n).length + (if sign then 1 else 0) ≤ c.maxlen then
        some ((if sign then [minus] else []) ++ (msbDigits a.length n).map (encDigit a))
      else none := by
  have hloop := encodeLoop_spec hc c.maxlen n (List.replicate c.maxlen 0) (by simp)
  unfold Codec.encode
  by_cases hk : (msbDigits a.length n).length ≤ c.maxlen
  · rw [if_pos hk] at hloop
    obtain ⟨out, h1, h2, h3⟩ := hloop
    rw [h1]
    simp only []
    have hdrop : List.drop c.maxlen (List.replicate c.maxlen (0 : Byte)) = [] := by simp
    rw [hdrop, List.append_nil] at h3
    cases sign with
    | false =>
      simp only [Bool.false_eq_true, if_false, Nat.add_zero, List.nil_append]
      rw [if_pos hk, h3]
    | true =>
      simp only [if_true]
      by_cases hk1 : (msbDigits a.length n).length + 1 ≤ c.maxlen
      · rw [if_pos hk1]
        obtain ⟨j, hj⟩ : ∃ j, c.maxlen - (msbDigits a.length n).length = j + 1 :=
          ⟨c.maxlen - (msbDigits a.length n).length - 1, by omega⟩
        rw [hj] at h3 ⊢
        simp only []
        have hjlt : j < out.length := by
          rw [h2, List.length_replicate]
          omega
        rw [drop_set_self out j _ hjlt, h3]
        rfl
      · rw [if_neg hk1]
        have hz : c.maxlen - (msbDigits a.length n).length = 0 := by omega
        rw [hz]
  · rw [if_neg hk] at hloop
    rw [hloop, if_neg (by split <;> omega)]

theorem msbDigits_length_le_maxlen {a : List Byte} {c : Codec} (hc : IsCodecOf a c) {n : Nat}
    (hn : n < 2 ^ 64) : (msbDigits a.length n).length ≤ c.maxlen := by
  rw [hc.maxlen_eq]
  apply msbDigits_length_le hc.two_le
  exact lt_trans hn (pow_maxlen_gt hc.two_le)

theorem EncodeUint_eq {a : List Byte} {c : Codec} (hc : IsCodecOf a c) {n : Nat}
    (hn : n < 2 ^ 64) :
    c.EncodeUint n = some ((msbDigits a.length n).map (encDigit a)) := by
  unfold Codec.EncodeUint
  rw [encode_spec hc]
  simp only [Bool.false_eq_true, if_false, Nat.add_zero, List.nil_append]
  rw [if_pos (msbDigits_length_le_maxlen hc hn)]

/-! ## Decoding -/

theorem decodeLoop_value {a : List Byte} {c : Codec} (hc : IsCodecOf a c) :
    ∀ (s : List Byte) (n : Nat), (∀ b ∈ s, b ∈ a) →
      n * a.length ^ s.length + posValue a.length (s.map (digitOf a)) < 2 ^ 64 →
      decodeLoop c s n =
        (n * a.length ^ s.length + posValue a.length (s.map (digitOf a)), none) := by
  intro s
  induction s with
  | nil =>
    intro n _ _
    simp [decodeLoop, posValue]
  | cons b rest ih =>
    intro n hmem hlt
    have hb : b ∈ a := hmem b (List.mem_cons_self _ _)
    have hrest : ∀ x ∈ rest, x ∈ a := fun x hx => hmem x (List.mem_cons_of_mem _ hx)
    have hpos : 0 < a.length ^ rest.length := Nat.pow_pos (by have := hc.two_le; omega)
    have hsplit : n * a.length ^ (b :: rest).length +
        posValue a.length ((b :: rest).map (digitOf a)) =
        (n * a.length + digitOf a b) * a.length ^ rest.length +
          posValue a.length (rest.map (digitOf a)) := by
      simp only [List.length_cons, List.map_cons, posValue, List.length_map]
      ring
    rw [hsplit] at hlt ⊢
    have hstep : n * a.length + digitOf a b < 2 ^ 64 := by
      have h1 : n * a.length + digitOf a b ≤
          (n * a.length + digitOf a b) * a.length ^ rest.length :=
        Nat.le_mul_of_pos_right _ hpos
      omega
    have hge : n ≤ n * a.length + digitOf a b := by
      have : n ≤ n * a.length := Nat.le_mul_of_pos_right _ (by have := hc.two_le; omega)
      omega
    unfold decodeLoop
    rw [hc.encodeMap_eq, hc.decode_mem b hb]
    have hd : (a.indexOf b : Nat) = digitOf a b := rfl
    rw [if_neg (by omega), Int.toNat_ofNat, hd, Nat.mod_eq_of_lt hstep, if_neg (by omega)]
    exact ih _ hrest hlt

theorem DecodeUint_value {a : List Byte} {c : Codec} (hc : IsCodecOf a c) (s : List Byte)
    (hne : s ≠ []) (hmem : ∀ b ∈ s, b ∈ a)
    (hle : posValue a.length (s.map (digitOf a)) ≤ 2 ^ 64 - 1) :
    c.DecodeUint s = (posValue a.length (s.map (digitOf a)), none) := by
  unfold Codec.DecodeUint
  rw [if_neg hne]
  have := decodeLoop_value hc s 0 hmem (by omega)
  simpa using this

theorem map_digitOf_encDigit {a : List Byte} (hnd : a.Nodup) (ds : List Nat)
    (hds : ∀ d ∈ ds, d < a.length) : (ds.map (encDigit a)).map (digitOf a) = ds := by
  induction ds with
  | nil => rfl
  | cons d ds ih =>
    simp only [List.map_cons]
    rw [digitOf_encDigit hnd (hds d (List.mem_cons_self _ _)),
      ih (fun x hx => hds x (List.mem_cons_of_mem _ hx))]

theorem decodeLoop_nil (c : Codec) (n : Nat) : decodeLoop c [] n = (n, none) := rfl

theorem decodeLoop_cons (c : Codec) (b : Byte) (rest : List Byte) (n : Nat) :
    decodeLoop c (b :: rest) n =
      if c.decodeMap.get b < 0 then (n, some .ErrInvalid)
      else if (n * c.encodeMap.length + (c.decodeMap.get b).toNat) % 2 ^ 64 < n then
        (n, some .ErrOverflow)
      else decodeLoop c rest ((n * c.encodeMap.length + (c.decodeMap.get b).toNat) % 2 ^ 64) :=
  rfl

theorem decodeLoop_append (c : Codec) (p t : List Byte) :
    ∀ n, decodeLoop c (p ++ t) n =
      if (decodeLoop c p n).2 = none then decodeLoop c t (decodeLoop c p n).1
      else decodeLoop c p n := by
  induction p with
  | nil =>
    intro n
    simp [decodeLoop_nil]
  | cons b rest ih =>
    intro n
    rw [List.cons_append, decodeLoop_cons, decodeLoop_cons]
    split
    · simp
    · split
      · simp
      · exact ih _

theorem decodeLoop_err_of_mem {a : List Byte} {c : Codec} (hc : IsCodecOf a c)
    (p : List Byte) (hp : ∀ x ∈ p, x ∈ a) :
    ∀ n, (decodeLoop c p n).2 = none ∨ (decodeLoop c p n).2 = some .ErrOverflow := by
  induction p with
  | nil =>
    intro n
    simp [decodeLoop]
  | cons b rest ih =>
    intro n
    have hb : b ∈ a := hp b (List.mem_cons_self _ _)
    unfold decodeLoop
    rw [hc.decode_mem b hb, if_neg (by omega)]
    split
    · right
      rfl
    · exact ih (fun x hx => hp x (List.mem_cons_of_mem _ hx)) _

theorem decodeLoop_invalid {a : List Byte} {c : Codec} (hc : IsCodecOf a c)
    (b : Byte) (hb : b ∉ a) (q : List Byte) (n : Nat) :
    decodeLoop c (b :: q) n = (n, some .ErrInvalid) := by
  unfold decodeLoop
  rw [hc.decode_not_mem b hb, if_pos (by omega)]

theorem test_table_passes : ∀ t ∈ tests, testEncodeRow t = true ∧ testDecodeRow t = true := by
  decide

theorem decodeLoop_lt (c : Codec) (s : List Byte) :
    ∀ n, n < 2 ^ 64 → (decodeLoop c s n).1 < 2 ^ 64 := by
  induction s with
  | nil =>
    intro n hn
    exact hn
  | cons b rest ih =>
    intro n hn
    rw [decodeLoop_cons]
    split
    · exact hn
    · split
      · exact hn
      · exact ih _ (Nat.mod_lt _ (by norm_num))

theorem DecodeUint_lt (c : Codec) (s : List Byte) : (c.DecodeUint s).1 < 2 ^ 64 := by
  unfold Codec.DecodeUint
  split
  · norm_num
  · exact decodeLoop_lt c s 0 (by norm_num)

theorem fillDecode_error (l : List Byte) : ∀ (i : Nat) (d : Mathlib.Vector Int 256) (e : Panic),
    fillDecode l i d = .error e → e = .duplicate := by
  induction l with
  | nil =>
    intro i d e h
    cases h
  | cons b rest ih =>
    intro i d e h
    unfold fillDecode at h
    split at h
    · cases h
      rfl
    · exact ih _ _ e h

theorem fillDecode_succeeds (l : List Byte) : ∀ (i : Nat) (d : Mathlib.Vector Int 256),
    l.Nodup → (∀ b ∈ l, d.get b < 0) → ∃ d', fillDecode l i d = .ok d' := by
  induction l with
  | nil =>
    intro i d _ _
    exact ⟨d, rfl⟩
  | cons b rest ih =>
    intro i d hnd hneg
    have hb : b ∉ rest := (List.nodup_cons.mp hnd).1
    have hlt := hneg b (List.mem_cons_self _ _)
    unfold fillDecode
    rw [if_neg (by omega)]
    apply ih (i + 1) _ (List.nodup_cons.mp hnd).2
    intro x hx
    have hne : b ≠ x := fun e => hb (e ▸ hx)
    rw [Mathlib.Vector.get_set_of_ne hne]
    exact hneg x (List.mem_cons_of_mem _ hx)

theorem New_cases (a : List Byte) :
    (a.length < 2 ∧ New a = .error .minBase) ∨
    (256 < a.length ∧ New a = .error .maxBase) ∨
    (2 ≤ a.length ∧ a.length ≤ 256 ∧ ¬ a.Nodup ∧ New a = .error .duplicate) ∨
    (2 ≤ a.length ∧ a.length ≤ 256 ∧ a.Nodup ∧ ∃ c, New a = .ok c ∧ c.Base = a.length) := by
  by_cases h1 : a.length < 2
  · left
    exact ⟨h1, by simp [New, h1]⟩
  · by_cases h2 : a.length > 256
    · right; left
      exact ⟨h2, by simp [New, h1, h2]⟩
    · right; right
      cases hfill : fillDecode a 0 (Mathlib.Vector.replicate 256 (-1)) with
      | error e =>
        left
        have he := fillDecode_error a 0 _ e hfill
        subst he
        refine ⟨by omega, by omega, ?_, by unfold New; rw [if_neg h1, if_neg h2, hfill]⟩
        intro hnd
        obtain ⟨d', hd'⟩ := fillDecode_succeeds a 0 (Mathlib.Vector.replicate 256 (-1)) hnd
          (by
            intro b _
            rw [Mathlib.Vector.get_replicate]
            omega)
        rw [hd'] at hfill
        cases hfill
      | ok decode =>
        right
        refine ⟨by omega, by omega, (fillDecode_ok a 0 _ decode hfill).1, ?_⟩
        exact ⟨⟨a, decode, roundLog a.length + 1⟩,
          by unfold New; rw [if_neg h1, if_neg h2, hfill], rfl⟩

theorem baseN_ok (l : List Byte) (hl : l.length = 36) (hnd : l.Nodup) (n : Int)
    (h2 : 2 ≤ n) (h36 : n ≤ 36) :
    ∃ c, New (l.take n.toNat) = .ok c ∧ (c.Base : Int) = n ∧
      (∀ i : Nat, (i : Int) < n → c.encodeMap[i]? = l[i]?) ∧
      (∀ (i : Nat) (ch : Byte), (i : Int) < n → l[i]? = some ch →
        c.decodeMap.get ch = (i : Int)) := by
  have hlen : (l.take n.toNat).length = n.toNat := by
    rw [List.length_take, hl]
    omega
  have hnd2 : (l.take n.toNat).Nodup := List.Nodup.sublist (List.take_sublist _ _) hnd
  rcases New_cases (l.take n.toNat) with ⟨h1, _⟩ | ⟨h1, _⟩ | ⟨_, _, h3, _⟩ | ⟨_, _, _, c, h, hb⟩
  · omega
  · omega
  · exact absurd hnd2 h3
  · have hc := New_ok h
    have htake : ∀ i : Nat, (i : Int) < n → (l.take n.toNat)[i]? = l[i]? := by
      intro i hi
      exact List.getElem?_take_of_lt (by omega)
    refine ⟨c, h, ?_, ?_, ?_⟩
    · rw [hb, hlen]
      omega
    · intro i hi
      rw [hc.encodeMap_eq]
      exact htake i hi
    · intro i ch hi hch
      have hil : i < (l.take n.toNat).length := by omega
      have hget : (l.take n.toNat)[i] = ch := by
        have h1 := htake i hi
        rw [hch, List.getElem?_eq_getElem hil] at h1
        exact Option.some.inj h1
      have hmem : ch ∈ l.take n.toNat := hget ▸ List.getElem_mem hil
      rw [hc.decode_mem ch hmem, ← hget, List.indexOf_getElem hnd2 i hil]

theorem decodeLoop_fail_split (c : Codec) (s : List Byte) :
    ∀ n, (decodeLoop c s n).2 ≠ none →
      ∃ p b q, s = p ++ b :: q ∧ decodeLoop c p n = ((decodeLoop c s n).1, none) ∧
        (decodeLoop c [b] (decodeLoop c s n).1).2 = (decodeLoop c s n).2 := by
  induction s with
  | nil =>
    intro n h
    exact absurd rfl h
  | cons b rest ih =>
    intro n h
    rw [decodeLoop_cons] at h ⊢
    by_cases h1 : c.decodeMap.get b < 0
    · rw [if_pos h1]
      refine ⟨[], b, rest, rfl, rfl, ?_⟩
      rw [decodeLoop_cons, if_pos h1]
    · rw [if_neg h1] at h ⊢
      by_cases h2 : (n * c.encodeMap.length + (c.decodeMap.get b).toNat) % 2 ^ 64 < n
      · rw [if_pos h2]
        refine ⟨[], b, rest, rfl, rfl, ?_⟩
        rw [decodeLoop_cons, if_neg h1, if_pos h2]
      · rw [if_neg h2] at h ⊢
        obtain ⟨p, b', q, hs, hp, hb'⟩ := ih _ h
        refine ⟨b :: p, b', q, by rw [hs]; rfl, ?_, hb'⟩
        rw [decodeLoop_cons, if_neg h1, if_neg h2]
        exact hp

/-! ## Signed decoding -/

theorem asInt64_eq {u : Nat} (hu : u < 2 ^ 64) :
    asInt64 u = if u < 2 ^ 63 then (u : Int) else (u : Int) - 2 ^ 64 := by
  unfold asInt64
  rw [Nat.mod_eq_of_lt hu]

theorem negInt64_asInt64 {u : Nat} (hu : u < 2 ^ 64) :
    negInt64 (asInt64 u) =
      if u < 2 ^ 63 then -(u : Int) else if u = 2 ^ 63 then -2 ^ 63 else 2 ^ 64 - (u : Int) := by
  rw [asInt64_eq hu]
  unfold negInt64 toUint64
  have hm : ∀ z : Int, 0 ≤ z → z < 2 ^ 64 → asInt64 z.toNat =
      if z < 2 ^ 63 then z else z - 2 ^ 64 := by
    intro z h0 h1
    have hz : z.toNat < 2 ^ 64 := by omega
    rw [asInt64_eq hz]
    have : (z.toNat : Int) = z := Int.toNat_of_nonneg h0
    rw [this]
    by_cases hlt : z < 2 ^ 63
    · rw [if_pos hlt, if_pos (by omega)]
    · rw [if_neg hlt, if_neg (by omega)]
  have hmod0 : ∀ z : Int, 0 ≤ z % 2 ^ 64 := fun z => Int.emod_nonneg z (by norm_num)
  have hmod1 : ∀ z : Int, z % 2 ^ 64 < 2 ^ 64 := fun z => Int.emod_lt_of_pos z (by norm_num)
  rw [hm _ (hmod0 _) (hmod1 _)]
  split_ifs <;> omega

theorem DecodeInt_cons (c : Codec) (b : Byte) (rest : List Byte) :
    c.DecodeInt (b :: rest) =
      (if b = minus then negInt64 (asInt64 (c.DecodeUint (if b = minus then rest else b :: rest)).1)
        else asInt64 (c.DecodeUint (if b = minus then rest else b :: rest)).1,
       if (c.DecodeUint (if b = minus then rest else b :: rest)).2 ≠ none ∧
          asInt64 (c.DecodeUint (if b = minus then rest else b :: rest)).1 < 0
       then some DecodeError.ErrOverflow
       else (c.DecodeUint (if b = minus then rest else b :: rest)).2) :=
  rfl

theorem head_tail_cons (b : Byte) (rest : List Byte) :
    (if (b :: rest).head? = some minus then (b :: rest).tail else b :: rest) =
      (if b = minus then rest else b :: rest) := by
  by_cases hb : b = minus <;> simp [hb]

/-! ## Decoding modulo `2^64` and canonical strings -/

theorem decodeLoop_mod {a : List Byte} {c : Codec} (hc : IsCodecOf a c) :
    ∀ (s : List Byte) (n : Nat), (∀ b ∈ s, b ∈ a) → (decodeLoop c s n).2 = none →
      (decodeLoop c s n).1 % 2 ^ 64 =
        (n * a.length ^ s.length + posValue a.length (s.map (digitOf a))) % 2 ^ 64 := by
  intro s
  induction s with
  | nil =>
    intro n _ _
    simp [decodeLoop_nil, posValue]
  | cons b rest ih =>
    intro n hmem hok
    have hb : b ∈ a := hmem b (List.mem_cons_self _ _)
    have hrest : ∀ x ∈ rest, x ∈ a := fun x hx => hmem x (List.mem_cons_of_mem _ hx)
    have hd : ((a.indexOf b : Nat) : Int).toNat = digitOf a b := Int.toNat_ofNat _
    rw [decodeLoop_cons, hc.encodeMap_eq, hc.decode_mem b hb, if_neg (by omega), hd] at hok ⊢
    by_cases h2 : (n * a.length + digitOf a b) % 2 ^ 64 < n
    · rw [if_pos h2] at hok
      cases hok
    · rw [if_neg h2] at hok ⊢
      rw [ih _ hrest hok]
      have hsplit : n * a.length ^ (b :: rest).length +
          posValue a.length ((b :: rest).map (digitOf a)) =
          (n * a.length + digitOf a b) * a.length ^ rest.length +
            posValue a.length (rest.map (digitOf a)) := by
        simp only [List.length_cons, List.map_cons, posValue, List.length_map]
        ring
      rw [hsplit]
      exact Nat.ModEq.add_right _ (Nat.ModEq.mul_right _ (Nat.mod_modEq _ _))

theorem posValue_eq_ofDigits (r : Nat) (ds : List Nat) :
    posValue r ds = Nat.ofDigits r ds.reverse := by
  induction ds with
  | nil => simp [posValue]
  | cons d ds ih =>
    rw [List.reverse_cons, Nat.ofDigits_append, ← ih, List.length_reverse]
    simp only [posValue, Nat.ofDigits_singleton]
    ring

theorem posValue_tail_le (r d : Nat) (ds : List Nat) : posValue r ds ≤ posValue r (d :: ds) := by
  simp only [posValue]
  omega

theorem msbDigits_posValue {r : Nat} (hr : 2 ≤ r) (ds : List Nat) (hlt : ∀ d ∈ ds, d < r)
    (hne : ds ≠ []) (hcanon : ds.head? ≠ some 0 ∨ ds = [0]) :
    msbDigits r (posValue r ds) = ds := by
  rcases hcanon with hhead | hzero
  · have hdig : Nat.digits r (posValue r ds) = ds.reverse := by
      rw [posValue_eq_ofDigits]
      apply Nat.digits_ofDigits r (by omega)
      · intro l hl
        exact hlt l (List.mem_reverse.mp hl)
      · intro hnil
        rw [List.getLast_reverse]
        intro h0
        apply hhead
        rw [List.head?_eq_head hne, h0]
    unfold msbDigits
    split
    · rename_i h0
      rw [h0, Nat.digits_zero] at hdig
      exact absurd (List.reverse_eq_nil_iff.mp hdig.symm) hne
    · rw [hdig, List.reverse_reverse]
  · subst hzero
    simp [posValue, msbDigits]

theorem encDigit_digitOf {a : List Byte} {b : Byte} (hb : b ∈ a) :
    encDigit a (digitOf a b) = b := by
  have hlt : a.indexOf b < a.length := List.indexOf_lt_length.mpr hb
  rw [digitOf, encDigit_eq_getElem hlt]
  exact List.getElem_indexOf hlt

theorem map_encDigit_digitOf {a : List Byte} (s : List Byte) (hmem : ∀ b ∈ s, b ∈ a) :
    (s.map (digitOf a)).map (encDigit a) = s := by
  induction s with
  | nil => rfl
  | cons b rest ih =>
    simp only [List.map_cons]
    rw [encDigit_digitOf (hmem b (List.mem_cons_self _ _)),
      ih (fun x hx => hmem x (List.mem_cons_of_mem _ hx))]

/-! ## Concrete instances -/

set_option maxRecDepth 100000 in
theorem New_instances :
    New (bytes "aab") = .error .duplicate ∧
    New (bytes "a") = .error .minBase ∧
    New (List.replicate 257 (48 : Byte)) = .error .maxBase ∧
    (∃ c, New base64 = .ok c ∧ c.Base = 64) := by
  refine ⟨by decide, by decide, by decide, codecOf base64, by rfl, by decide⟩

theorem minus_alphabet_instances :
    (codecOf (bytes "0-")).EncodeInt 3 = some (bytes "--") ∧
    (codecOf (bytes "0-")).EncodeInt (-1) = some (bytes "--") ∧
    (codecOf (bytes "0-")).DecodeInt (bytes "--") = (-1, none) ∧
    (codecOf (bytes "0-")).EncodeInt 1 = some (bytes "-") ∧
    (codecOf (bytes "0-")).DecodeInt (bytes "-") = (0, some .ErrEmpty) := by
  decide

/-! ## The claims -/

/-- C1: for every codec built by `New` and every `uint64` value `v`, `EncodeUint v`
returns a string (it does not panic) and `DecodeUint` of that string returns
`(v, nil)`. -/
theorem C1_unsigned_round_trip (a : List Byte) (c : Codec) (h : New a = .ok c)
    (v : Nat) (hv : v < 2 ^ 64) :
    ∃ s, c.EncodeUint v = some s ∧ c.DecodeUint s = (v, none) := by
  have hc := New_ok h
  refine ⟨_, EncodeUint_eq hc hv, ?_⟩
  have hlt := msbDigits_lt hc.two_le v
  have hval := DecodeUint_value hc ((msbDigits a.length v).map (encDigit a))
    (by simpa using msbDigits_ne_nil a.length v)
    (by
      intro b hb
      obtain ⟨d, hd, rfl⟩ := List.mem_map.mp hb
      exact encDigit_mem (hlt d hd))
    (by
      rw [map_digitOf_encDigit hc.nodup _ hlt, posValue_msbDigits hc.two_le]
      omega)
  rw [map_digitOf_encDigit hc.nodup _ hlt, posValue_msbDigits hc.two_le] at hval
  exact hval

theorem C1_unsigned_round_trip_witness :
    ∃ s, (codecOf (bytes "0123456789")).EncodeUint 18446744073709551615 = some s ∧
      (codecOf (bytes "0123456789")).DecodeUint s = (18446744073709551615, none) :=
  C1_unsigned_round_trip (bytes "0123456789") (codecOf (bytes "0123456789")) rfl
    18446744073709551615 (by decide)

/-- C5: for every codec built by `New` and every non-empty string `s` of alphabet
bytes whose positional value `V(s)` is at most `2^64-1`, `DecodeUint s` returns
`(V(s), nil)`; leading zero digits are allowed. -/
theorem C5_decodeUint_positional_value (a : List Byte) (c : Codec) (h : New a = .ok c)
    (s : List Byte) (hne : s ≠ []) (hmem : ∀ b ∈ s, b ∈ a)
    (hle : posValue c.Base (s.map (digitOf a)) ≤ 2 ^ 64 - 1) :
    c.DecodeUint s = (posValue c.Base (s.map (digitOf a)), none) := by
  have hc := New_ok h
  have hbase : c.Base = a.length := by rw [Codec.Base, hc.encodeMap_eq]
  rw [hbase] at hle ⊢
  exact DecodeUint_value hc s hne hmem hle

set_option maxRecDepth 100000 in
theorem C5_decodeUint_positional_value_witness :
    (codecOf (bytes "0123456789")).DecodeUint (bytes "0018446744073709551615") =
      (posValue (codecOf (bytes "0123456789")).Base
        ((bytes "0018446744073709551615").map (digitOf (bytes "0123456789"))), none) :=
  C5_decodeUint_positional_value (bytes "0123456789") (codecOf (bytes "0123456789")) rfl
    (bytes "0018446744073709551615") (by decide) (by decide) (by decide)

/-- C6: for every codec built by `New` and every `uint64` value `n`, `EncodeUint n`
returns the characters `alphabet[d]` of the base-`r` digits `d` of `n`, most
significant first; every digit is below `r`, the leading digit is not zero when
`n ≠ 0`, and for `n = 0` the result is the single character `alphabet[0]`. -/
theorem C6_encodeUint_canonical (a : List Byte) (c : Codec) (h : New a = .ok c)
    (n : Nat) (hn : n < 2 ^ 64) :
    (n = 0 → c.EncodeUint n = some [encDigit a 0]) ∧
    (n ≠ 0 → c.EncodeUint n = some ((Nat.digits c.Base n).reverse.map (encDigit a)) ∧
      (Nat.digits c.Base n).reverse.head? ≠ some 0) ∧
    (∀ d ∈ Nat.digits c.Base n, d < a.length) := by
  have hc := New_ok h
  have hbase : c.Base = a.length := by rw [Codec.Base, hc.encodeMap_eq]
  have henc := EncodeUint_eq hc hn
  rw [hbase]
  refine ⟨?_, ?_, ?_⟩
  · intro h0
    subst h0
    rw [henc]
    simp [msbDigits]
  · intro h0
    constructor
    · rw [henc]
      simp [msbDigits, h0]
    · rw [List.head?_reverse]
      have hnil : Nat.digits a.length n ≠ [] := Nat.digits_ne_nil_iff_ne_zero.mpr h0
      rw [List.getLast?_eq_getLast _ hnil]
      intro hsome
      exact Nat.getLast_digit_ne_zero a.length h0 (Option.some.inj hsome)
  · intro d hd
    exact Nat.digits_lt_base (by have := hc.two_le; omega) hd

theorem C6_encodeUint_canonical_witness :
    ((12345678 : Nat) = 0 → (codecOf (bytes "0123456789")).EncodeUint 12345678 =
      some [encDigit (bytes "0123456789") 0]) ∧
    ((12345678 : Nat) ≠ 0 → (codecOf (bytes "0123456789")).EncodeUint 12345678 =
        some ((Nat.digits (codecOf (bytes "0123456789")).Base 12345678).reverse.map
          (encDigit (bytes "0123456789"))) ∧
      (Nat.digits (codecOf (bytes "0123456789")).Base 12345678).reverse.head? ≠ some 0) ∧
    (∀ d ∈ Nat.digits (codecOf (bytes "0123456789")).Base 12345678,
      d < (bytes "0123456789").length) :=
  C6_encodeUint_canonical (bytes "0123456789") (codecOf (bytes "0123456789")) rfl 12345678
    (by decide)

/-- C2: the signed round trip breaks at radix 13, 15 and 18 for the minimum
value: `LowerBaseN(r)` is built, and `EncodeInt(-2^63)` panics (the sign byte
would be written at buffer index -1), so there is no string to decode. -/
theorem C2_encodeInt_min_panics :
    withLower 13 (fun c => c.EncodeInt (-9223372036854775808)) = some none ∧
    withLower 15 (fun c => c.EncodeInt (-9223372036854775808)) = some none ∧
    withLower 18 (fun c => c.EncodeInt (-9223372036854775808)) = some none := by
  decide

/-- C3: `DecodeUint` returns a wrapped value and a nil error for strings whose
positional value exceeds `2^64-1`: at radix 10 for "20496382304121724020", and
at radix 2 for sixty-five ones. -/
theorem C3_decodeUint_overflow_missed :
    withLower 10 (fun c => c.DecodeUint (bytes "20496382304121724020")) =
      some (2049638230412172404, none) ∧
    2 ^ 64 - 1 < posValue 10 ((bytes "20496382304121724020").map (digitOf (lowerBase36.take 10))) ∧
    withLower 2 (fun c => c.DecodeUint (List.replicate 65 (49 : Byte))) =
      some (18446744073709551615, none) ∧
    2 ^ 64 - 1 < posValue 2 ((List.replicate 65 (49 : Byte)).map (digitOf (lowerBase36.take 2))) := by
  decide

/-- C4: `DecodeInt` at radix 10 returns a nil error for strings outside the
signed range: "9223372036854775808" gives `-2^63`, "18446744073709551615" gives
`-1`, and "-9223372036854775809" gives `2^63-1`. -/
theorem C4_decodeInt_overflow_missed :
    withLower 10 (fun c => c.DecodeInt (bytes "9223372036854775808")) =
      some (-9223372036854775808, none) ∧
    withLower 10 (fun c => c.DecodeInt (bytes "18446744073709551615")) = some (-1, none) ∧
    withLower 10 (fun c => c.DecodeInt (bytes "-9223372036854775809")) =
      some (9223372036854775807, none) := by
  decide

/-- C7: at radix 8, `EncodeUint(2^63)` returns the 22 digits
"1000000000000000000000" while `EncodeInt(-2^63)` panics instead of returning
"-" followed by those digits. -/
theorem C7_encodeInt_min_radix8 :
    withLower 8 (fun c => c.EncodeUint 9223372036854775808) =
      some (some (bytes "1000000000000000000000")) ∧
    withLower 8 (fun c => c.EncodeInt (-9223372036854775808)) = some none := by
  decide

/-- C8: at radix 13 the buffer has `maxlen = 18` bytes, the magnitude `2^63` of
the minimum value takes 18 digits, so `EncodeInt(-2^63)` needs 19 bytes and
panics; the same happens at radix 15 (17 bytes) and radix 18 (16 bytes). -/
theorem C8_maxlen_too_small :
    withLower 13 (fun c => (c.maxlen, (c.EncodeUint 9223372036854775808).map List.length,
      c.EncodeInt (-9223372036854775808))) = some (18, some 18, none) ∧
    withLower 15 (fun c => (c.maxlen, (c.EncodeUint 9223372036854775808).map List.length,
      c.EncodeInt (-9223372036854775808))) = some (17, some 17, none) ∧
    withLower 18 (fun c => (c.maxlen, (c.EncodeUint 9223372036854775808).map List.length,
      c.EncodeInt (-9223372036854775808))) = some (16, some 16, none) := by
  decide

/-- C10: at radix 10 the inner `DecodeUint` returns `ErrInvalid` for
"9223372036854775808g" (with the accumulated `2^63`), and `DecodeInt` returns
`ErrOverflow` instead, both for "9223372036854775808g" and for
"-9223372036854775808g", where `-2^63` fits an `int64` and "g" is the only
fault; for "12g" and "-12g" `DecodeInt` does return the inner `ErrInvalid`. -/
theorem C10_decodeInt_rewrites_error :
    withLower 10 (fun c => c.DecodeUint (bytes "9223372036854775808g")) =
      some (9223372036854775808, some .ErrInvalid) ∧
    withLower 10 (fun c => c.DecodeInt (bytes "9223372036854775808g")) =
      some (-9223372036854775808, some .ErrOverflow) ∧
    withLower 10 (fun c => c.DecodeInt (bytes "-9223372036854775808g")) =
      some (-9223372036854775808, some .ErrOverflow) ∧
    withLower 10 (fun c => c.DecodeInt (bytes "12g")) = some (12, some .ErrInvalid) ∧
    withLower 10 (fun c => c.DecodeInt (bytes "-12g")) = some (-12, some .ErrInvalid) := by
  decide

/-- C9 as stated fails: at radix 10 the string of twenty nines followed by "g" is
non-empty and contains the byte "g", which is not in the alphabet, and
`DecodeUint` returns `ErrOverflow`, not `ErrInvalid`. -/
theorem C9_counterexample :
    bytes "99999999999999999999g" ≠ [] ∧
    (∃ b ∈ bytes "99999999999999999999g", b ∉ lowerBase36.take 10) ∧
    withLower 10 (fun c => c.DecodeUint (bytes "99999999999999999999g")) =
      some (9999999999999999999, some .ErrOverflow) ∧
    withLower 10 (fun c => (c.DecodeUint (bytes "99999999999999999999g")).2) ≠
      some (some .ErrInvalid) := by
  decide

/-- C9 amended: for every codec built by `New` and every string `p ++ b :: q`
where `p` holds alphabet bytes only and `b` is not in the alphabet, `DecodeUint`
returns `ErrInvalid` when `p` is empty or `DecodeUint p` returns a nil error,
and `ErrOverflow` otherwise; in both cases the error is not nil. -/
theorem C9_first_failure_reported (a : List Byte) (c : Codec) (h : New a = .ok c)
    (p q : List Byte) (b : Byte) (hp : ∀ x ∈ p, x ∈ a) (hb : b ∉ a) :
    (c.DecodeUint (p ++ b :: q)).2 =
      if p = [] ∨ (c.DecodeUint p).2 = none then some .ErrInvalid else some .ErrOverflow := by
  have hc := New_ok h
  have hne : p ++ b :: q ≠ [] := by simp
  unfold Codec.DecodeUint
  rw [if_neg hne, decodeLoop_append]
  by_cases hnil : p = []
  · subst hnil
    rw [decodeLoop_nil]
    simp [decodeLoop_invalid hc b hb]
  · rw [if_neg hnil]
    rcases decodeLoop_err_of_mem hc p hp 0 with hnone | hov
    · rw [if_pos hnone, decodeLoop_invalid hc b hb, if_pos (Or.inr hnone)]
    · have hnn : ¬ (decodeLoop c p 0).2 = none := by rw [hov]; simp
      rw [if_neg hnn, if_neg (by simp [hnil, hnn])]
      exact hov

set_option maxRecDepth 100000 in
theorem C9_first_failure_reported_witness :
    ((codecOf (bytes "0123456789")).DecodeUint (bytes "99999999999999999999" ++ 103 :: [])).2 =
      if bytes "99999999999999999999" = [] ∨
          ((codecOf (bytes "0123456789")).DecodeUint (bytes "99999999999999999999")).2 = none
      then some .ErrInvalid else some .ErrOverflow :=
  C9_first_failure_reported (bytes "0123456789") (codecOf (bytes "0123456789")) rfl
    (bytes "99999999999999999999") [] 103 (by decide) (by decide)

/-- C11: for every byte string `a`, `New a` panics with the minimum-base message
exactly when `len(a) < 2`, with the maximum-base message exactly when
`len(a) > 256`, with the duplicate-character message exactly when
`2 ≤ len(a) ≤ 256` and some byte occurs twice, and returns a codec exactly in
the remaining case; that codec has `Base() = len(a)`. -/
theorem C11_new_validates_alphabet (a : List Byte) :
    (New a = .error .minBase ↔ a.length < 2) ∧
    (New a = .error .maxBase ↔ 256 < a.length) ∧
    (New a = .error .duplicate ↔ (2 ≤ a.length ∧ a.length ≤ 256 ∧ ¬ a.Nodup)) ∧
    ((∃ c, New a = .ok c ∧ c.Base = a.length) ↔
      (2 ≤ a.length ∧ a.length ≤ 256 ∧ a.Nodup)) := by
  rcases New_cases a with ⟨h1, h⟩ | ⟨h1, h⟩ | ⟨h1, h2, h3, h⟩ | ⟨h1, h2, h3, c, h, hb⟩
  · rw [h]
    refine ⟨by simp [h1], ?_, ?_, ?_⟩
    · constructor
      · intro e; cases e
      · intro; omega
    · constructor
      · intro e; cases e
      · intro hh; omega
    · constructor
      · rintro ⟨c, e, _⟩; cases e
      · intro hh; omega
  · rw [h]
    refine ⟨?_, by simp [h1], ?_, ?_⟩
    · constructor
      · intro e; cases e
      · intro; omega
    · constructor
      · intro e; cases e
      · intro hh; omega
    · constructor
      · rintro ⟨c, e, _⟩; cases e
      · intro hh; omega
  · rw [h]
    refine ⟨?_, ?_, by simp [h1, h2, h3], ?_⟩
    · constructor
      · intro e; cases e
      · intro; omega
    · constructor
      · intro e; cases e
      · intro; omega
    · constructor
      · rintro ⟨c, e, _⟩; cases e
      · intro hh; exact absurd hh.2.2 h3
  · rw [h]
    refine ⟨?_, ?_, ?_, ?_⟩
    · constructor
      · intro e; cases e
      · intro; omega
    · constructor
      · intro e; cases e
      · intro; omega
    · constructor
      · intro e; cases e
      · intro hh; exact absurd h3 hh.2.2
    · constructor
      · intro _; exact ⟨h1, h2, h3⟩
      · intro _; exact ⟨c, rfl, hb⟩

/-- C12: for every codec, `DecodeUint("")` returns `ErrEmpty` and
`DecodeInt("")` returns `ErrEmpty`. -/
theorem C12_empty_input_rejected (c : Codec) :
    (c.DecodeUint []).2 = some .ErrEmpty ∧ (c.DecodeInt []).2 = some .ErrEmpty :=
  ⟨rfl, rfl⟩

/-- C17: for every codec `New a` returns, `decodeMap` has 256 entries,
`decodeMap[a[i]] = i` for every index `i < len(a)`, and `decodeMap[b] = -1` for
every byte `b` that does not occur in `a`. -/
theorem C17_reverse_lookup (a : List Byte) (c : Codec) (h : New a = .ok c) :
    c.decodeMap.toList.length = 256 ∧
    (∀ (i : Nat) (hi : i < a.length), c.decodeMap.get (a.get ⟨i, hi⟩) = (i : Int)) ∧
    (∀ b : Byte, b ∉ a → c.decodeMap.get b = -1) := by
  have hc := New_ok h
  refine ⟨Mathlib.Vector.toList_length _, ?_, hc.decode_not_mem⟩
  intro i hi
  rw [hc.decode_mem _ (List.get_mem a i hi)]
  have := List.indexOf_getElem hc.nodup i hi
  simp only [List.get_eq_getElem]
  rw [this]

theorem C17_reverse_lookup_witness :
    (codecOf (bytes "0123456789abcdef")).decodeMap.toList.length = 256 ∧
    (∀ (i : Nat) (hi : i < (bytes "0123456789abcdef").length),
      (codecOf (bytes "0123456789abcdef")).decodeMap.get
        ((bytes "0123456789abcdef").get ⟨i, hi⟩) = (i : Int)) ∧
    (∀ b : Byte, b ∉ bytes "0123456789abcdef" →
      (codecOf (bytes "0123456789abcdef")).decodeMap.get b = -1) :=
  C17_reverse_lookup (bytes "0123456789abcdef") (codecOf (bytes "0123456789abcdef")) rfl

/-- C13: for every `int` `n`, `LowerBaseN n` and `UpperBaseN n` panic exactly
when `n < 2` or `n > 36`; for `n` in `[2,36]` they return a codec with
`Base() = n` whose digit `i` (for `i < n`) is the `i`-th character of
`lowerBase36` (respectively `upperBase36`), both for encoding and decoding. -/
theorem C13_baseN_bounds (n : Int) :
    ((∃ e, LowerBaseN n = .error e) ↔ (n < 2 ∨ n > 36)) ∧
    ((∃ e, UpperBaseN n = .error e) ↔ (n < 2 ∨ n > 36)) ∧
    ((2 ≤ n ∧ n ≤ 36) →
      (∃ c, LowerBaseN n = .ok c ∧ (c.Base : Int) = n ∧
        (∀ i : Nat, (i : Int) < n → c.encodeMap[i]? = lowerBase36[i]?) ∧
        (∀ (i : Nat) (ch : Byte), (i : Int) < n → lowerBase36[i]? = some ch →
          c.decodeMap.get ch = (i : Int))) ∧
      (∃ c, UpperBaseN n = .ok c ∧ (c.Base : Int) = n ∧
        (∀ i : Nat, (i : Int) < n → c.encodeMap[i]? = upperBase36[i]?) ∧
        (∀ (i : Nat) (ch : Byte), (i : Int) < n → upperBase36[i]? = some ch →
          c.decodeMap.get ch = (i : Int)))) := by
  have hlo := baseN_ok lowerBase36 (by decide) (by decide) n
  have hup := baseN_ok upperBase36 (by decide) (by decide) n
  by_cases hr : n < 2 ∨ n > 36
  · refine ⟨?_, ?_, ?_⟩
    · simp only [LowerBaseN, if_pos hr, iff_true, hr]
      exact ⟨_, rfl⟩
    · simp only [UpperBaseN, if_pos hr, iff_true, hr]
      exact ⟨_, rfl⟩
    · intro hh
      omega
  · have h2 : 2 ≤ n := by omega
    have h36 : n ≤ 36 := by omega
    obtain ⟨c1, hc1, r1⟩ := hlo h2 h36
    obtain ⟨c2, hc2, r2⟩ := hup h2 h36
    have e1 : LowerBaseN n = .ok c1 := by rw [LowerBaseN, if_neg hr, hc1]
    have e2 : UpperBaseN n = .ok c2 := by rw [UpperBaseN, if_neg hr, hc2]
    refine ⟨?_, ?_, ?_⟩
    · rw [e1]
      constructor
      · rintro ⟨e, he⟩
        cases he
      · intro hh
        exact absurd hh hr
    · rw [e2]
      constructor
      · rintro ⟨e, he⟩
        cases he
      · intro hh
        exact absurd hh hr
    · intro _
      exact ⟨⟨c1, e1, r1⟩, ⟨c2, e2, r2⟩⟩

/-- C16: at radix 10 `EncodeInt(-2^63)` is "-9223372036854775808" and `DecodeInt`
of that string is `(-2^63, nil)`; at radix 16 `EncodeInt(-2^63)` is
"-8000000000000000" and `DecodeInt` of that string is `(-2^63, nil)`. -/
theorem C16_min_value_radix_10_16 :
    withLower 10 (fun c => c.EncodeInt (-9223372036854775808)) =
      some (some (bytes "-9223372036854775808")) ∧
    withLower 10 (fun c => c.DecodeInt (bytes "-9223372036854775808")) =
      some (-9223372036854775808, none) ∧
    withLower 16 (fun c => c.EncodeInt (-9223372036854775808)) =
      some (some (bytes "-8000000000000000")) ∧
    withLower 16 (fun c => c.DecodeInt (bytes "-8000000000000000")) =
      some (-9223372036854775808, none) := by
  decide

/-- C15 as stated fails: at radix 10 `DecodeUint("12g")` returns the error
`ErrInvalid` together with the number 12, not 0. -/
theorem C15_counterexample :
    withLower 10 (fun c => c.DecodeUint (bytes "12g")) = some (12, some .ErrInvalid) ∧
    withLower 10 (fun c => (c.DecodeUint (bytes "12g")).1) ≠ some 0 := by
  decide

/-- C15 amended: for every codec and every string `s`, whenever `DecodeUint s`
returns a non-nil error, either `s` is empty and the number is 0, or
`s = p ++ b :: q` where the loop consumes `p` without error, fails at the byte
`b` with the error returned, and the number returned is the accumulator after
`p` (0 when `p` is empty). -/
theorem C15_accumulator_on_failure (c : Codec) (s : List Byte)
    (h : (c.DecodeUint s).2 ≠ none) :
    (s = [] ∧ c.DecodeUint s = (0, some .ErrEmpty)) ∨
    ∃ p b q, s = p ++ b :: q ∧ decodeLoop c p 0 = ((c.DecodeUint s).1, none) ∧
      (decodeLoop c [b] (c.DecodeUint s).1).2 = (c.DecodeUint s).2 := by
  by_cases hs : s = []
  · left
    subst hs
    exact ⟨rfl, rfl⟩
  · right
    unfold Codec.DecodeUint at h ⊢
    rw [if_neg hs] at h ⊢
    exact decodeLoop_fail_split c s 0 h

theorem C15_accumulator_on_failure_witness :
    (bytes "12g" = [] ∧
      (codecOf (bytes "0123456789")).DecodeUint (bytes "12g") = (0, some .ErrEmpty)) ∨
    ∃ p b q, bytes "12g" = p ++ b :: q ∧
      decodeLoop (codecOf (bytes "0123456789")) p 0 =
        (((codecOf (bytes "0123456789")).DecodeUint (bytes "12g")).1, none) ∧
      (decodeLoop (codecOf (bytes "0123456789")) [b]
        ((codecOf (bytes "0123456789")).DecodeUint (bytes "12g")).1).2 =
        ((codecOf (bytes "0123456789")).DecodeUint (bytes "12g")).2 :=
  C15_accumulator_on_failure (codecOf (bytes "0123456789")) (bytes "12g") (by decide)

/-- C18: for every codec and every non-empty string `s`, with `t` equal to `s`
without its leading "-" (or `s` itself when it has none): `DecodeInt s` returns
a nil error exactly when `DecodeUint t` does, and then its value is the result
`u` of `DecodeUint t` read as a two's-complement `int64` (`u - 2^64` when
`u ≥ 2^63`), negated modulo `2^64` when the "-" was there; nothing checks the
range on this path. -/
theorem C18_decodeInt_reinterprets (c : Codec) (s : List Byte) (hne : s ≠ []) :
    ((c.DecodeInt s).2 = none ↔
      (c.DecodeUint (if s.head? = some minus then s.tail else s)).2 = none) ∧
    ∀ u : Nat, c.DecodeUint (if s.head? = some minus then s.tail else s) = (u, none) →
      c.DecodeInt s =
        (if s.head? = some minus then
          (if u < 2 ^ 63 then -(u : Int) else if u = 2 ^ 63 then -2 ^ 63 else 2 ^ 64 - (u : Int))
         else (if u < 2 ^ 63 then (u : Int) else (u : Int) - 2 ^ 64), none) := by
  cases s with
  | nil => exact absurd rfl hne
  | cons b rest =>
    rw [head_tail_cons, DecodeInt_cons]
    have hlt := DecodeUint_lt c (if b = minus then rest else b :: rest)
    generalize c.DecodeUint (if b = minus then rest else b :: rest) = r at hlt ⊢
    obtain ⟨u0, e0⟩ := r
    dsimp only at hlt ⊢
    constructor
    · cases e0 with
      | none => simp
      | some e => by_cases hneg : asInt64 u0 < 0 <;> simp [hneg]
    · intro u hu
      cases hu
      simp only [ne_eq, not_true_eq_false, false_and, if_false]
      rw [negInt64_asInt64 hlt, asInt64_eq hlt]
      by_cases hb : b = minus
      · simp [hb]
      · simp [hb]

theorem C18_decodeInt_reinterprets_witness :
    (((codecOf (bytes "0123456789")).DecodeInt (bytes "-9223372036854775809")).2 = none ↔
      ((codecOf (bytes "0123456789")).DecodeUint
        (if (bytes "-9223372036854775809").head? = some minus
          then (bytes "-9223372036854775809").tail else bytes "-9223372036854775809")).2 = none) ∧
    ∀ u : Nat, (codecOf (bytes "0123456789")).DecodeUint
        (if (bytes "-9223372036854775809").head? = some minus
          then (bytes "-9223372036854775809").tail else bytes "-9223372036854775809") = (u, none) →
      (codecOf (bytes "0123456789")).DecodeInt (bytes "-9223372036854775809") =
        (if (bytes "-9223372036854775809").head? = some minus then
          (if u < 2 ^ 63 then -(u : Int) else if u = 2 ^ 63 then -2 ^ 63 else 2 ^ 64 - (u : Int))
         else (if u < 2 ^ 63 then (u : Int) else (u : Int) - 2 ^ 64), none) :=
  C18_decodeInt_reinterprets (codecOf (bytes "0123456789")) (bytes "-9223372036854775809")
    (by decide)

/-- C19: for every codec built by `New` and every non-empty string `s` of
alphabet bytes, if `DecodeUint s` returns a nil error then the number returned
is the positional value `V(s)` reduced modulo `2^64`, and it equals `V(s)`
exactly when `V(s) < 2^64`. -/
theorem C19_decodeUint_mod (a : List Byte) (c : Codec) (h : New a = .ok c)
    (s : List Byte) (hne : s ≠ []) (hmem : ∀ b ∈ s, b ∈ a)
    (hok : (c.DecodeUint s).2 = none) :
    (c.DecodeUint s).1 = posValue c.Base (s.map (digitOf a)) % 2 ^ 64 ∧
    ((c.DecodeUint s).1 = posValue c.Base (s.map (digitOf a)) ↔
      posValue c.Base (s.map (digitOf a)) < 2 ^ 64) := by
  have hc := New_ok h
  have hbase : c.Base = a.length := by rw [Codec.Base, hc.encodeMap_eq]
  have hlt := DecodeUint_lt c s
  have hmod : (c.DecodeUint s).1 = posValue c.Base (s.map (digitOf a)) % 2 ^ 64 := by
    rw [hbase]
    unfold Codec.DecodeUint at hok hlt ⊢
    rw [if_neg hne] at hok hlt ⊢
    have := decodeLoop_mod hc s 0 hmem hok
    rw [Nat.mod_eq_of_lt hlt] at this
    simpa using this
  refine ⟨hmod, ?_⟩
  constructor
  · intro he
    rw [← he]
    exact hlt
  · intro hv
    rw [hmod, Nat.mod_eq_of_lt hv]

set_option maxRecDepth 100000 in
theorem C19_decodeUint_mod_witness :
    ((codecOf (bytes "0123456789")).DecodeUint (bytes "20496382304121724020")).1 =
      posValue (codecOf (bytes "0123456789")).Base
        ((bytes "20496382304121724020").map (digitOf (bytes "0123456789"))) % 2 ^ 64 ∧
    (((codecOf (bytes "0123456789")).DecodeUint (bytes "20496382304121724020")).1 =
        posValue (codecOf (bytes "0123456789")).Base
          ((bytes "20496382304121724020").map (digitOf (bytes "0123456789"))) ↔
      posValue (codecOf (bytes "0123456789")).Base
        ((bytes "20496382304121724020").map (digitOf (bytes "0123456789"))) < 2 ^ 64) :=
  C19_decodeUint_mod (bytes "0123456789") (codecOf (bytes "0123456789")) rfl
    (bytes "20496382304121724020") (by decide) (by decide) (by decide)

/-- C20: for every codec built by `New` and every non-empty string `s` of
alphabet bytes that has no leading zero digit (or is the single character
`alphabet[0]`) and whose positional value is at most `2^64-1`, `DecodeUint s`
returns some `n` with a nil error and `EncodeUint n` returns `s`. -/
theorem C20_canonical_reencodes (a : List Byte) (c : Codec) (h : New a = .ok c)
    (s : List Byte) (hne : s ≠ []) (hmem : ∀ b ∈ s, b ∈ a)
    (hcanon : (s.map (digitOf a)).head? ≠ some 0 ∨ s = [encDigit a 0])
    (hle : posValue c.Base (s.map (digitOf a)) ≤ 2 ^ 64 - 1) :
    ∃ n, c.DecodeUint s = (n, none) ∧ c.EncodeUint n = some s := by
  have hc := New_ok h
  have hbase : c.Base = a.length := by rw [Codec.Base, hc.encodeMap_eq]
  rw [hbase] at hle
  refine ⟨_, DecodeUint_value hc s hne hmem hle, ?_⟩
  rw [EncodeUint_eq hc (by omega)]
  have hdl : ∀ d ∈ s.map (digitOf a), d < a.length := by
    intro d hd
    obtain ⟨b, hb, rfl⟩ := List.mem_map.mp hd
    exact List.indexOf_lt_length.mpr (hmem b hb)
  have hcanon2 : (s.map (digitOf a)).head? ≠ some 0 ∨ s.map (digitOf a) = [0] := by
    rcases hcanon with h1 | h1
    · exact Or.inl h1
    · right
      have h0 : (0 : Nat) < a.length := by have := hc.two_le; omega
      rw [h1, List.map_singleton, digitOf_encDigit hc.nodup h0]
  rw [msbDigits_posValue hc.two_le _ hdl (by simpa using hne) hcanon2,
    map_encDigit_digitOf s hmem]

set_option maxRecDepth 100000 in
theorem C20_canonical_reencodes_witness :
    ∃ n, (codecOf (bytes "0123456789")).DecodeUint (bytes "18446744073709551615") = (n, none) ∧
      (codecOf (bytes "0123456789")).EncodeUint n = some (bytes "18446744073709551615") :=
  C20_canonical_reencodes (bytes "0123456789") (codecOf (bytes "0123456789")) rfl
    (bytes "18446744073709551615") (by decide) (by decide) (by decide) (by decide)

/-- C14: for every codec built by `New` and every non-negative `int64` value `v`
such that `EncodeInt v` begins with "-" (so "-" is in the alphabet),
`DecodeInt` of that string does not return `(v, nil)`. -/
theorem C14_minus_hazard (a : List Byte) (c : Codec) (h : New a = .ok c)
    (v : Int) (hv0 : 0 ≤ v) (hv : v < 2 ^ 63) (s : List Byte)
    (henc : c.EncodeInt v = some s) (hstart : s.head? = some minus) :
    c.DecodeInt s ≠ (v, none) := by
  have hc := New_ok h
  have hr := hc.two_le
  have hu : toUint64 v = v.toNat := by
    unfold toUint64
    rw [Int.emod_eq_of_lt hv0 (by omega)]
  have hn : v.toNat < 2 ^ 63 := by omega
  have henc2 : c.EncodeUint v.toNat = some s := by
    rw [Codec.EncodeInt, if_neg (by omega), hu] at henc
    exact henc
  rw [EncodeUint_eq hc (by omega)] at henc2
  have hs : s = (msbDigits a.length v.toNat).map (encDigit a) := (Option.some.inj henc2).symm
  have hdl := msbDigits_lt hr v.toNat
  have hpv := posValue_msbDigits hr v.toNat
  cases hds : msbDigits a.length v.toNat with
  | nil => exact absurd hds (msbDigits_ne_nil _ _)
  | cons d0 ds =>
    rw [hds] at hs hdl hpv
    rw [hs, List.map_cons] at hstart ⊢
    have hb : encDigit a d0 = minus := by simpa using hstart
    rw [DecodeInt_cons, hb, if_pos rfl, if_pos rfl]
    intro heq
    have herr := congrArg Prod.snd heq
    have hval := congrArg Prod.fst heq
    dsimp only at herr hval
    by_cases hnil : ds = []
    · subst hnil
      revert herr
      simp only [List.map_nil, Codec.DecodeUint, if_true]
      split <;> simp
    · have hdl2 : ∀ d ∈ ds, d < a.length := fun d hd => hdl d (List.mem_cons_of_mem _ hd)
      have hle : posValue a.length ds ≤ v.toNat := by
        rw [← hpv]
        exact posValue_tail_le _ _ _
      have hdec := DecodeUint_value hc (ds.map (encDigit a)) (by simpa using hnil)
        (by
          intro b hb
          obtain ⟨d, hd, rfl⟩ := List.mem_map.mp hb
          exact encDigit_mem (hdl2 d hd))
        (by
          rw [map_digitOf_encDigit hc.nodup _ hdl2]
          omega)
      rw [map_digitOf_encDigit hc.nodup _ hdl2] at hdec
      rw [hdec, negInt64_asInt64 (by omega), if_pos (by omega)] at hval
      have hv00 : v.toNat = 0 := by omega
      rw [hv00] at hds
      have : msbDigits a.length 0 = [0] := by simp [msbDigits]
      rw [this] at hds
      simp only [List.cons.injEq] at hds
      exact hnil hds.2.symm

theorem C14_minus_hazard_witness :
    (codecOf (bytes "0-")).DecodeInt (bytes "--") ≠ (3, none) :=
  C14_minus_hazard (bytes "0-") (codecOf (bytes "0-")) rfl 3 (by decide) (by decide)
    (bytes "--") (by decide) (by decide)

end Intcodec
